import Mathlib

/-!
Verification of the insights-core exploration layer against its source.

The development shallowly embeds:
  * `insights/core/blacklist.py` — the allow/deny filter registry;
  * `insights/shell.py` — `__get_available_models` (the reachability
    analyzer consumer), `__Models.evaluate` and `__Models.evaluate_all`
    (the selective evaluator).

Components are identified by natural numbers; component values and fault
records are natural numbers.  Parts of the `dr` engine that the shell
module calls but whose code is not part of this repository snapshot
(the scheduler `dr.run`, the broker class, `run_order`,
`get_missing_dependencies`, `get_component`) are modelled from the spec
and marked as such in their doc comments.
-/

/-! ## Embedding of insights/core/blacklist.py -/

/-- Global mutable state of `insights/core/blacklist.py`: the five
module-level filter sets.  A compiled regular expression (an object of the
external `re` library) is modelled by its match predicate
`String → Bool`; the Python `set.add` of freshly compiled objects is
modelled by list append (duplicates do not affect `any`). -/
structure FilterState where
  _FILE_FILTERS : List (String → Bool)
  _COMMAND_FILTERS : List (String → Bool)
  _PATTERN_FILTERS : List String
  _REGEX_PATTERN_FILTERS : List String
  _KEYWORD_FILTERS : List String

/-- The initial module state: all five sets empty. -/
def FilterState.empty : FilterState := ⟨[], [], [], [], []⟩

/-- Python `set.add` on a set of strings, modelled on lists:
insert if not already present. -/
def strAdd (s : List String) (x : String) : List String :=
  if s.contains x then s else s ++ [x]

/-- Source `add_file`: `_FILE_FILTERS.add(re.compile(f))`. -/
def add_file (st : FilterState) (p : String → Bool) : FilterState :=
  { st with _FILE_FILTERS := st._FILE_FILTERS ++ [p] }

/-- Source `add_command`: `_COMMAND_FILTERS.add(re.compile(f))`. -/
def add_command (st : FilterState) (p : String → Bool) : FilterState :=
  { st with _COMMAND_FILTERS := st._COMMAND_FILTERS ++ [p] }

/-- Source `add_pattern`: `_PATTERN_FILTERS.add(f)`. -/
def add_pattern (st : FilterState) (s : String) : FilterState :=
  { st with _PATTERN_FILTERS := strAdd st._PATTERN_FILTERS s }

/-- Source `add_regex_pattern`: `_REGEX_PATTERN_FILTERS.add(f)`. -/
def add_regex_pattern (st : FilterState) (s : String) : FilterState :=
  { st with _REGEX_PATTERN_FILTERS := strAdd st._REGEX_PATTERN_FILTERS s }

/-- Source `add_keyword`: `_KEYWORD_FILTERS.add(f)`. -/
def add_keyword (st : FilterState) (s : String) : FilterState :=
  { st with _KEYWORD_FILTERS := strAdd st._KEYWORD_FILTERS s }

/-- Source `allow_file`: `not any(f.match(c) for f in _FILE_FILTERS)`. -/
def allow_file (st : FilterState) (c : String) : Bool :=
  ! st._FILE_FILTERS.any (fun f => f c)

/-- Source `allow_command`: `not any(f.match(c) for f in _COMMAND_FILTERS)`. -/
def allow_command (st : FilterState) (c : String) : Bool :=
  ! st._COMMAND_FILTERS.any (fun f => f c)

/-- Source `get_disallowed_patterns`: returns `_PATTERN_FILTERS`. -/
def get_disallowed_patterns (st : FilterState) : List String :=
  st._PATTERN_FILTERS

/-- Source `get_disallowed_regex_patterns`: returns `_REGEX_PATTERN_FILTERS`. -/
def get_disallowed_regex_patterns (st : FilterState) : List String :=
  st._REGEX_PATTERN_FILTERS

/-- Source `get_disallowed_keywords`: returns `_KEYWORD_FILTERS`. -/
def get_disallowed_keywords (st : FilterState) : List String :=
  st._KEYWORD_FILTERS

/-- A call to one of the five registration functions of the module. -/
inductive FilterOp where
  | file (p : String → Bool)
  | command (p : String → Bool)
  | pat (s : String)
  | regex (s : String)
  | keyword (s : String)

/-- Apply one registration call to the module state. -/
def applyOp (st : FilterState) : FilterOp → FilterState
  | .file p => add_file st p
  | .command p => add_command st p
  | .pat s => add_pattern st s
  | .regex s => add_regex_pattern st s
  | .keyword s => add_keyword st s

/-- Apply a sequence of registration calls, oldest first. -/
def applyOps (st : FilterState) (ops : List FilterOp) : FilterState :=
  ops.foldl applyOp st

lemma mem_strAdd (s : List String) (x y : String) :
    y ∈ strAdd s x ↔ y ∈ s ∨ y = x := by
  by_cases h : s.contains x
  · have hx : x ∈ s := by simpa using h
    simp only [strAdd, h, if_true]
    constructor
    · intro hy; exact Or.inl hy
    · rintro (hy | rfl) <;> [exact hy; exact hx]
  · have hx : x ∉ s := by simpa using h
    simp [strAdd, h, hx]

lemma patterns_applyOps (st : FilterState) (ops : List FilterOp) (s : String) :
    s ∈ (applyOps st ops)._PATTERN_FILTERS ↔
      s ∈ st._PATTERN_FILTERS ∨ FilterOp.pat s ∈ ops := by
  induction ops generalizing st with
  | nil => simp [applyOps]
  | cons op ops ih =>
    have hstep : applyOps st (op :: ops) = applyOps (applyOp st op) ops := rfl
    rw [hstep, ih]
    cases op with
    | file p => simp [applyOp, add_file]
    | command p => simp [applyOp, add_command]
    | pat t =>
      simp only [applyOp, add_pattern, mem_strAdd, List.mem_cons]
      constructor
      · rintro ((h | rfl) | h)
        · exact Or.inl h
        · exact Or.inr (Or.inl rfl)
        · exact Or.inr (Or.inr h)
      · rintro (h | (h | h))
        · exact Or.inl (Or.inl h)
        · exact Or.inl (Or.inr (by injection h))
        · exact Or.inr h
    | regex t => simp [applyOp, add_regex_pattern]
    | keyword t => simp [applyOp, add_keyword]

lemma regex_applyOps (st : FilterState) (ops : List FilterOp) (s : String) :
    s ∈ (applyOps st ops)._REGEX_PATTERN_FILTERS ↔
      s ∈ st._REGEX_PATTERN_FILTERS ∨ FilterOp.regex s ∈ ops := by
  induction ops generalizing st with
  | nil => simp [applyOps]
  | cons op ops ih =>
    have hstep : applyOps st (op :: ops) = applyOps (applyOp st op) ops := rfl
    rw [hstep, ih]
    cases op with
    | file p => simp [applyOp, add_file]
    | command p => simp [applyOp, add_command]
    | regex t =>
      simp only [applyOp, add_regex_pattern, mem_strAdd, List.mem_cons]
      constructor
      · rintro ((h | rfl) | h)
        · exact Or.inl h
        · exact Or.inr (Or.inl rfl)
        · exact Or.inr (Or.inr h)
      · rintro (h | (h | h))
        · exact Or.inl (Or.inl h)
        · exact Or.inl (Or.inr (by injection h))
        · exact Or.inr h
    | pat t => simp [applyOp, add_pattern]
    | keyword t => simp [applyOp, add_keyword]

lemma keywords_applyOps (st : FilterState) (ops : List FilterOp) (s : String) :
    s ∈ (applyOps st ops)._KEYWORD_FILTERS ↔
      s ∈ st._KEYWORD_FILTERS ∨ FilterOp.keyword s ∈ ops := by
  induction ops generalizing st with
  | nil => simp [applyOps]
  | cons op ops ih =>
    have hstep : applyOps st (op :: ops) = applyOps (applyOp st op) ops := rfl
    rw [hstep, ih]
    cases op with
    | file p => simp [applyOp, add_file]
    | command p => simp [applyOp, add_command]
    | keyword t =>
      simp only [applyOp, add_keyword, mem_strAdd, List.mem_cons]
      constructor
      · rintro ((h | rfl) | h)
        · exact Or.inl h
        · exact Or.inr (Or.inl rfl)
        · exact Or.inr (Or.inr h)
      · rintro (h | (h | h))
        · exact Or.inl (Or.inl h)
        · exact Or.inl (Or.inr (by injection h))
        · exact Or.inr h
    | pat t => simp [applyOp, add_pattern]
    | regex t => simp [applyOp, add_regex_pattern]

/-- C7: `allow_file` is true exactly when no registered file filter matches
the input; `allow_command` is true exactly when no registered command
filter matches; and after any sequence of registration calls the three
accessors return exactly the patterns, regex patterns and keywords that
were registered. -/
theorem blacklist_allow_and_accessor_spec :
    (∀ st c, allow_file st c = true ↔ ∀ f ∈ st._FILE_FILTERS, f c = false) ∧
    (∀ st c, allow_command st c = true ↔ ∀ f ∈ st._COMMAND_FILTERS, f c = false) ∧
    (∀ ops s, s ∈ get_disallowed_patterns (applyOps FilterState.empty ops) ↔
        FilterOp.pat s ∈ ops) ∧
    (∀ ops s, s ∈ get_disallowed_regex_patterns (applyOps FilterState.empty ops) ↔
        FilterOp.regex s ∈ ops) ∧
    (∀ ops s, s ∈ get_disallowed_keywords (applyOps FilterState.empty ops) ↔
        FilterOp.keyword s ∈ ops) := by
  refine ⟨?_, ?_, ?_, ?_, ?_⟩
  · intro st c
    simp [allow_file, List.any_eq_true]
  · intro st c
    simp [allow_command, List.any_eq_true]
  · intro ops s
    rw [get_disallowed_patterns, patterns_applyOps]
    simp [FilterState.empty]
  · intro ops s
    rw [get_disallowed_regex_patterns, regex_applyOps]
    simp [FilterState.empty]
  · intro ops s
    rw [get_disallowed_keywords, keywords_applyOps]
    simp [FilterState.empty]

/-- C8: registering filters only shrinks the allowed set, and with no
file or command filters registered every input is allowed. -/
theorem blacklist_filters_monotone :
    (∀ st p c, allow_file st c = false → allow_file (add_file st p) c = false) ∧
    (∀ st p c, allow_command st c = false → allow_command (add_command st p) c = false) ∧
    (∀ st c, st._FILE_FILTERS = [] → allow_file st c = true) ∧
    (∀ st c, st._COMMAND_FILTERS = [] → allow_command st c = true) := by
  refine ⟨?_, ?_, ?_, ?_⟩
  · intro st p c h
    simp only [allow_file, Bool.not_eq_false', List.any_eq_true] at h ⊢
    obtain ⟨f, hf, hfc⟩ := h
    exact ⟨f, by simp [add_file, hf], hfc⟩
  · intro st p c h
    simp only [allow_command, Bool.not_eq_false', List.any_eq_true] at h ⊢
    obtain ⟨f, hf, hfc⟩ := h
    exact ⟨f, by simp [add_command, hf], hfc⟩
  · intro st c h
    simp [allow_file, h]
  · intro st c h
    simp [allow_command, h]

/-- Witness for C8 at concrete inputs: a filter matching the literal
string "secret" makes `allow_file` false, and it stays false after a
further `add_file`; the empty state allows everything. -/
theorem blacklist_filters_monotone_witness :
    allow_file (add_file (add_file FilterState.empty (fun s => s == "secret"))
        (fun _ => false)) "secret" = false ∧
    allow_command (add_command (add_command FilterState.empty (fun s => s == "secret"))
        (fun _ => false)) "secret" = false ∧
    allow_file FilterState.empty "anything" = true ∧
    allow_command FilterState.empty "anything" = true := by
  refine ⟨?_, ?_, ?_, ?_⟩
  · exact blacklist_filters_monotone.1 _ _ _ (by decide)
  · exact blacklist_filters_monotone.2.1 _ _ _ (by decide)
  · exact blacklist_filters_monotone.2.2.1 _ _ rfl
  · exact blacklist_filters_monotone.2.2.2 _ _ rfl

/-! ## Data model for insights/shell.py

Components are identified by natural numbers; values and fault records
are natural numbers. -/

/-- Dependency metadata held in `dr.DELEGATES` for one component:
the requires-all set and the ordered alternative-groups
(requires-at-least-one-of-each). -/
structure Delegate where
  req : List Nat
  at_least_one : List (List Nat)
deriving DecidableEq, Repr

/-- Static, process-wide registration data that `insights/shell.py` reads
through the `dr` and `plugins` modules: the delegate table, the kind
predicates, the name accessors, the run order of the `single` group, and
name-to-component resolution. -/
structure Registry where
  delegates : List (Nat × Delegate)
  datasources : List Nat
  rules : List Nat
  conditions : List Nat
  incidents : List Nat
  simpleName : Nat → String
  baseModuleName : Nat → String
  qualName : Nat → String
  order : List Nat
  getComponent : String → Option Nat

/-- Lookup in an association list keyed by component identity. -/
def alookup {α : Type} (l : List (Nat × α)) (c : Nat) : Option α :=
  (l.find? (fun p => p.1 == c)).map (fun p => p.2)

/-- The delegate registered for a component (`dr.DELEGATES[comp]`),
if any (`comp in dr.DELEGATES`). -/
def Registry.delegateOf (r : Registry) (c : Nat) : Option Delegate :=
  alookup r.delegates c

/-- Source `plugins.is_datasource(comp)`. -/
def Registry.is_datasource (r : Registry) (c : Nat) : Bool :=
  r.datasources.contains c

/-- Source `plugins.is_type(comp, (plugins.rule, plugins.condition,
plugins.incident))`. -/
def Registry.isRuleLike (r : Registry) (c : Nat) : Bool :=
  r.rules.contains c || r.conditions.contains c || r.incidents.contains c

/-- Source `plugins.is_rule(comp)`. -/
def Registry.is_rule (r : Registry) (c : Nat) : Bool :=
  r.rules.contains c

/-- Session state store (`dr.Broker`): computed value per component
(`instances`), captured fault per component (`exceptions`), and
missing-dependency record per component (`missing_requirements`), the
latter holding the unmet requires-all set and unsatisfied
alternative-groups. -/
structure Broker where
  instances : List (Nat × Nat)
  exceptions : List (Nat × Nat)
  missing_requirements : List (Nat × (List Nat × List (List Nat)))
deriving DecidableEq, Repr

/-- Python `comp in broker` — the broker holds a computed value. -/
def Broker.holds (b : Broker) (c : Nat) : Bool :=
  (alookup b.instances c).isSome

/-- Python `comp in broker.exceptions`. -/
def Broker.hasException (b : Broker) (c : Nat) : Bool :=
  (alookup b.exceptions c).isSome

/-- Python `comp in broker.missing_requirements`. -/
def Broker.hasMissing (b : Broker) (c : Nat) : Bool :=
  (alookup b.missing_requirements c).isSome

/-- A component is resolved when it has a value, a fault, or a
missing-dependency record. -/
def Broker.resolved (b : Broker) (c : Nat) : Bool :=
  b.holds c || b.hasException c || b.hasMissing c

/-- Python `broker.get(comp)` — the computed value, if any. -/
def Broker.get (b : Broker) (c : Nat) : Option Nat :=
  alookup b.instances c

/-- Python `set(broker.instances.keys())`. -/
def Broker.instKeys (b : Broker) : List Nat :=
  b.instances.map (fun p => p.1)

/-- Python `set.add` on a set of components, modelled on lists. -/
def natAdd (s : List Nat) (x : Nat) : List Nat :=
  if s.contains x then s else s ++ [x]

/-- Modelled from the spec: `ComponentDelegate.get_missing_dependencies`
of the `dr` engine, whose code is not part of this repository snapshot.
Per the spec a component is blocked exactly when its requires-all set is
not contained in the known set or some alternative-group does not
intersect the known set; the call is truthy exactly in that case. -/
def get_missing_dependencies (d : Delegate) (state : List Nat) : Bool :=
  (! d.req.all (fun c => state.contains c)) ||
    d.at_least_one.any (fun g => ! g.any (fun c => state.contains c))

/-! ## Embedding of `__get_available_models` (shell.py lines 66-94) -/

/-- Python dict lookup `m.get(k)` on an association list. -/
def dictGet (m : List (String × Nat)) (k : String) : Option Nat :=
  ((m.find? (fun p => p.1 == k)).map (fun p => p.2))

/-- Python dict assignment `m[k] = v`: overwrite in place if the key is
present, else append. -/
def dictSet (m : List (String × Nat)) (k : String) (v : Nat) : List (String × Nat) :=
  if m.any (fun p => p.1 == k) then
    m.map (fun p => if p.1 == k then (k, v) else p)
  else m ++ [(k, v)]

/-- Python `del m[k]`. -/
def dictDel (m : List (String × Nat)) (k : String) : List (String × Nat) :=
  m.filter (fun p => p.1 != k)

/-- The friendly name computed at shell.py lines 79-82: rule-like
components are keyed by base module name joined to simple name by an
underscore, others by their simple name. -/
def modelName (r : Registry) (c : Nat) : String :=
  if r.isRuleLike c then r.baseModuleName c ++ "_" ++ r.simpleName c
  else r.simpleName c

/-- Python `s.replace(".", "_")` for the single-character pattern used at
shell.py lines 86 and 89: every dot becomes an underscore. -/
def replaceDots (s : String) : String :=
  ⟨s.data.map (fun ch => if ch = '.' then '_' else ch)⟩

/-- The fallback key of shell.py lines 86 and 89: the fully qualified
name with dots replaced by underscores. -/
def underscored (r : Registry) (c : Nat) : String :=
  replaceDots (r.qualName c)

/-- One iteration of the loop of `__get_available_models`
(shell.py lines 74-92), acting on the pair (models, state). -/
def availStep (r : Registry) (acc : List (String × Nat) × List Nat) (comp : Nat) :
    List (String × Nat) × List Nat :=
  let models := acc.1
  let state := acc.2
  match r.delegateOf comp with
  | none => acc
  | some d =>
    if r.is_datasource comp then acc
    else if get_missing_dependencies d state then acc
    else
      let name := modelName r comp
      match dictGet models name with
      | some prev =>
        let models := dictSet models (underscored r prev) prev
        let models := dictDel models name
        (dictSet models (underscored r comp) comp, natAdd state comp)
      | none =>
        (dictSet models name comp, natAdd state comp)

/-- Source `__get_available_models(broker)`: seed the simulated known set
from the broker's resolved values, walk the run order of the `single`
group, and collect the name-to-component table of everything not blocked
by missing dependencies. -/
def getAvailableModels (r : Registry) (b : Broker) : List (String × Nat) :=
  (r.order.foldl (availStep r) ([], b.instKeys)).1

/-- The simulated known set at the end of the walk. -/
def availableState (r : Registry) (b : Broker) : List Nat :=
  (r.order.foldl (availStep r) ([], b.instKeys)).2

/-- The loop of `__get_available_models` with the broker threaded through
every iteration.  The source loop body performs no operation on the
broker — it is read once, at the seeding of `state` — so each step
returns it as received. -/
def availStepB (r : Registry) (acc : Broker × List (String × Nat) × List Nat)
    (comp : Nat) : Broker × List (String × Nat) × List Nat :=
  (acc.1, availStep r (acc.2.1, acc.2.2) comp)

/-- State-passing form of `__get_available_models`, returning the broker
alongside the models table. -/
def getAvailableModelsRun (r : Registry) (b : Broker) :
    Broker × List (String × Nat) :=
  let st := r.order.foldl (availStepB r) (b, [], b.instKeys)
  (st.1, st.2.1)

/-! ## Specification walks for the reachability pass -/

/-- A component's declared requirements are satisfiable against a known
set: requires-all contained in it and every alternative-group meeting it.
This is the negation of `get_missing_dependencies`. -/
def satisfiedLists (d : Delegate) (state : List Nat) : Bool :=
  d.req.all (fun c => state.contains c) &&
    d.at_least_one.all (fun g => g.any (fun c => state.contains c))

/-- The guard of the loop body of `__get_available_models`: the component
is a registered delegate, is not a datasource, and its requirements are
satisfiable against the simulated known set. -/
def addable (r : Registry) (state : List Nat) (c : Nat) : Bool :=
  match r.delegateOf c with
  | none => false
  | some d => ! r.is_datasource c && ! get_missing_dependencies d state

/-- The sequence of components the loop of `__get_available_models`
accepts, walking the run order with the simulated known set. -/
def availWalk (r : Registry) (state : List Nat) : List Nat → List Nat
  | [] => []
  | c :: cs =>
    if addable r state c then c :: availWalk r (natAdd state c) cs
    else availWalk r state cs

/-- The simulated known set after walking a list of components. -/
def availWalkState (r : Registry) (state : List Nat) : List Nat → List Nat
  | [] => state
  | c :: cs =>
    if addable r state c then availWalkState r (natAdd state c) cs
    else availWalkState r state cs

/-- Modelled from the spec: the algorithm of the Reachability Analyzer as
the spec words it — "walk the group's run order; maintain a simulated
known set seeded from the broker's currently-resolved values; for each
component in order, if its requires-all ⊆ known and each
alternative-group intersects known, add it to both the result set and the
known set, else leave it out".  The spec attaches the requirement check
to every component of the group; a component without a registered
dependency declaration has nothing to check. -/
def reachableSpecWalk (r : Registry) (state : List Nat) : List Nat → List Nat
  | [] => []
  | c :: cs =>
    let ok := match r.delegateOf c with
      | none => true
      | some d => satisfiedLists d state
    if ok then c :: reachableSpecWalk r (natAdd state c) cs
    else reachableSpecWalk r state cs

/-- Modelled from the spec: `reachable(group, broker)` for the `single`
group, per the spec's algorithm. -/
def reachableSpec (r : Registry) (b : Broker) : List Nat :=
  reachableSpecWalk r b.instKeys r.order

lemma satisfiedLists_eq_not_missing (d : Delegate) (state : List Nat) :
    satisfiedLists d state = ! get_missing_dependencies d state := by
  simp [satisfiedLists, get_missing_dependencies, List.all_eq_not_any_not]

/-! ## C3: the reachability pass leaves the broker unchanged -/

lemma foldl_availStepB (r : Registry) (l : List Nat) (b : Broker)
    (p : List (String × Nat) × List Nat) :
    l.foldl (availStepB r) (b, p) = (b, l.foldl (availStep r) p) := by
  induction l generalizing p with
  | nil => rfl
  | cons c cs ih => simpa [List.foldl, availStepB] using ih (availStep r p c)

/-- C3: running the reachability analysis leaves the broker unchanged.
Every iteration of the loop of `__get_available_models` passes the broker
through untouched (the embedding `availStepB` marks each place state
could flow), no entry is added to or removed from any of its three
tables, and the models table it produces agrees with the pure reading
`getAvailableModels`; no component body is consulted — the definitions
take no component-body argument at all. -/
theorem reachability_preserves_broker (r : Registry) (b : Broker) :
    (getAvailableModelsRun r b).1 = b ∧
    (getAvailableModelsRun r b).2 = getAvailableModels r b := by
  unfold getAvailableModelsRun getAvailableModels
  rw [foldl_availStepB]
  exact ⟨rfl, rfl⟩

/-! ## Dictionary lemmas -/

lemma dictGet_none_iff (m : List (String × Nat)) (k : String) :
    dictGet m k = none ↔ ∀ p ∈ m, p.1 ≠ k := by
  simp only [dictGet, Option.map_eq_none', List.find?_eq_none, beq_iff_eq]

lemma dictGet_some_mem {m : List (String × Nat)} {k : String} {v : Nat}
    (h : dictGet m k = some v) : (k, v) ∈ m := by
  simp only [dictGet, Option.map_eq_some'] at h
  obtain ⟨p, hp, hv⟩ := h
  have hmem := List.mem_of_find?_eq_some hp
  have hkey : p.1 = k := by
    have := List.find?_some hp
    simpa using this
  have : p = (k, v) := by
    cases p
    simp_all
  rwa [this] at hmem

lemma dictSet_of_fresh {m : List (String × Nat)} {k : String}
    (h : ∀ p ∈ m, p.1 ≠ k) (v : Nat) : dictSet m k v = m ++ [(k, v)] := by
  have hany : m.any (fun p => p.1 == k) = false := by
    simp only [List.any_eq_false, beq_iff_eq]
    exact h
  simp [dictSet, hany]

lemma eq_key_of_nodup_snd {m : List (String × Nat)}
    (h : (m.map Prod.snd).Nodup) {k1 k2 : String} {v : Nat}
    (h1 : (k1, v) ∈ m) (h2 : (k2, v) ∈ m) : k1 = k2 := by
  have := List.inj_on_of_nodup_map h h1 h2 rfl
  exact congrArg Prod.fst this

lemma keys_nodup_append {m : List (String × Nat)} {k : String}
    (h : (m.map Prod.fst).Nodup) (hf : ∀ p ∈ m, p.1 ≠ k) (v : Nat) :
    ((m ++ [(k, v)]).map Prod.fst).Nodup := by
  rw [List.map_append]
  rw [List.nodup_append]
  refine ⟨h, List.nodup_singleton k, ?_⟩
  intro x hx hx2
  simp only [List.map_cons, List.map_nil, List.mem_singleton] at hx2
  simp only [List.mem_map] at hx
  obtain ⟨p, hp, rfl⟩ := hx
  exact hf p hp hx2

/-- Good-naming hypotheses for the model-table collision handling:
the underscored qualified names of the components of the run order are
pairwise distinct and never equal to any component's friendly name. -/
def GoodNames (r : Registry) : Prop :=
  (∀ c ∈ r.order, ∀ c' ∈ r.order, underscored r c = underscored r c' → c = c') ∧
  (∀ c ∈ r.order, ∀ c' ∈ r.order, modelName r c ≠ underscored r c')

lemma avail_fold_values (r : Registry) (hgood : GoodNames r) :
    ∀ (l : List Nat) (models : List (String × Nat)) (state added : List Nat),
      l.Nodup → (∀ x ∈ l, x ∈ r.order) → (∀ x ∈ added, x ∈ r.order) →
      added.Nodup → (∀ x ∈ l, x ∉ added) →
      (models.map Prod.snd).Perm added →
      (models.map Prod.fst).Nodup →
      (∀ p ∈ models, p.1 = modelName r p.2 ∨ p.1 = underscored r p.2) →
      ((l.foldl (availStep r) (models, state)).1.map Prod.snd).Perm
          (added ++ availWalk r state l) ∧
      ((l.foldl (availStep r) (models, state)).1.map Prod.fst).Nodup ∧
      (∀ p ∈ (l.foldl (availStep r) (models, state)).1,
          p.1 = modelName r p.2 ∨ p.1 = underscored r p.2) := by
  obtain ⟨hinj, hdisj⟩ := hgood
  intro l
  induction l with
  | nil =>
    intro models state added _ _ _ _ _ hperm hkeys hshape
    exact ⟨by simpa [availWalk] using hperm, hkeys, hshape⟩
  | cons c cs ih =>
    intro models state added hnd hl hadded hand hfresh hperm hkeys hshape
    have hc_ord : c ∈ r.order := hl c (List.mem_cons_self c cs)
    have hc_not_added : c ∉ added := hfresh c (List.mem_cons_self c cs)
    have hnd' : cs.Nodup := hnd.of_cons
    have hl' : ∀ x ∈ cs, x ∈ r.order := fun x hx => hl x (List.mem_cons_of_mem c hx)
    have hfresh' : ∀ x ∈ cs, x ∉ added := fun x hx => hfresh x (List.mem_cons_of_mem c hx)
    rw [List.foldl_cons]
    cases hd : r.delegateOf c with
    | none =>
      have hstep : availStep r (models, state) c = (models, state) := by
        simp [availStep, hd]
      have hwalk : availWalk r state (c :: cs) = availWalk r state cs := by
        simp [availWalk, addable, hd]
      rw [hstep, hwalk]
      exact ih models state added hnd' hl' hadded hand hfresh' hperm hkeys hshape
    | some d =>
      cases hds : r.is_datasource c with
      | true =>
        have hstep : availStep r (models, state) c = (models, state) := by
          simp [availStep, hd, hds]
        have hwalk : availWalk r state (c :: cs) = availWalk r state cs := by
          simp [availWalk, addable, hd, hds]
        rw [hstep, hwalk]
        exact ih models state added hnd' hl' hadded hand hfresh' hperm hkeys hshape
      | false =>
        cases hmiss : get_missing_dependencies d state with
        | true =>
          have hstep : availStep r (models, state) c = (models, state) := by
            simp [availStep, hd, hds, hmiss]
          have hwalk : availWalk r state (c :: cs) = availWalk r state cs := by
            simp [availWalk, addable, hd, hds, hmiss]
          rw [hstep, hwalk]
          exact ih models state added hnd' hl' hadded hand hfresh' hperm hkeys hshape
        | false =>
          have haddable : addable r state c = true := by
            simp [addable, hd, hds, hmiss]
          have hwalk : availWalk r state (c :: cs) =
              c :: availWalk r (natAdd state c) cs := by
            simp [availWalk, haddable]
          rw [hwalk]
          have hadded' : ∀ x ∈ added ++ [c], x ∈ r.order := by
            intro x hx
            rcases List.mem_append.mp hx with h | h
            · exact hadded x h
            · have hxc := List.mem_singleton.mp h
              subst hxc
              exact hc_ord
          have hand' : (added ++ [c]).Nodup := by
            rw [List.nodup_append]
            refine ⟨hand, List.nodup_singleton c, ?_⟩
            intro x hx hx2
            have hxc := List.mem_singleton.mp hx2
            subst hxc
            exact hc_not_added hx
          have hfresh'' : ∀ x ∈ cs, x ∉ added ++ [c] := by
            intro x hx hmem
            rcases List.mem_append.mp hmem with h | h
            · exact hfresh' x hx h
            · have hxc := List.mem_singleton.mp h
              subst hxc
              exact (List.nodup_cons.mp hnd).1 hx
          cases hget : dictGet models (modelName r c) with
          | none =>
            have hfreshk : ∀ p ∈ models, p.1 ≠ modelName r c :=
              (dictGet_none_iff models (modelName r c)).mp hget
            have hstep : availStep r (models, state) c =
                (models ++ [(modelName r c, c)], natAdd state c) := by
              simp only [availStep, hd, hds, hmiss, hget]
              rw [dictSet_of_fresh hfreshk]
              simp
            rw [hstep]
            have hperm' : ((models ++ [(modelName r c, c)]).map Prod.snd).Perm
                (added ++ [c]) := by
              rw [List.map_append]
              exact hperm.append_right _
            have hkeys' := keys_nodup_append hkeys hfreshk c
            have hshape' : ∀ p ∈ models ++ [(modelName r c, c)],
                p.1 = modelName r p.2 ∨ p.1 = underscored r p.2 := by
              intro p hp
              rcases List.mem_append.mp hp with h | h
              · exact hshape p h
              · rw [List.mem_singleton.mp h]
                exact Or.inl rfl
            have := ih (models ++ [(modelName r c, c)]) (natAdd state c) (added ++ [c])
              hnd' hl' hadded' hand' hfresh'' hperm' hkeys' hshape'
            refine ⟨?_, this.2.1, this.2.2⟩
            have h1 := this.1
            rwa [List.append_assoc, List.singleton_append] at h1
          | some prev =>
            have hprevmem : (modelName r c, prev) ∈ models := dictGet_some_mem hget
            have hprev_val : prev ∈ models.map Prod.snd :=
              List.mem_map.mpr ⟨(modelName r c, prev), hprevmem, rfl⟩
            have hprev_added : prev ∈ added := hperm.mem_iff.mp hprev_val
            have hprev_ord : prev ∈ r.order := hadded prev hprev_added
            have hsnd_nodup : (models.map Prod.snd).Nodup := hperm.nodup_iff.mpr hand
            have hA : ∀ p ∈ models, p.1 ≠ underscored r prev := by
              intro p hp heq
              have hp_val : p.2 ∈ models.map Prod.snd := List.mem_map.mpr ⟨p, hp, rfl⟩
              have hp_ord : p.2 ∈ r.order := hadded p.2 (hperm.mem_iff.mp hp_val)
              rcases hshape p hp with h1 | h2
              · exact hdisj p.2 hp_ord prev hprev_ord (h1.symm.trans heq)
              · have hpp : p.2 = prev := hinj p.2 hp_ord prev hprev_ord (h2.symm.trans heq)
                have hp' : (p.1, prev) ∈ models := by
                  have hpe : p = (p.1, prev) := by
                    cases p with
                    | mk a b => simp only at hpp; rw [hpp]
                  rwa [hpe] at hp
                have hkeyeq : p.1 = modelName r c :=
                  eq_key_of_nodup_snd hsnd_nodup hp' hprevmem
                exact hdisj c hc_ord prev hprev_ord (hkeyeq.symm.trans heq)
            have hne1 : underscored r prev ≠ modelName r c :=
              fun h => hdisj c hc_ord prev hprev_ord h.symm
            obtain ⟨l1, l2, hml⟩ := List.append_of_mem hprevmem
            subst hml
            have hkeys' : (l1.map Prod.fst ++ modelName r c :: l2.map Prod.fst).Nodup := by
              simpa using hkeys
            have hkeys12 : ((l1 ++ l2).map Prod.fst).Nodup := by
              rw [List.map_append]
              refine List.Nodup.sublist ?_ hkeys'
              exact (List.sublist_cons_self _ _).append_left _
            have hnm_not : ∀ p ∈ l1 ++ l2, p.1 ≠ modelName r c := by
              rw [List.nodup_append] at hkeys'
              obtain ⟨hk1, hk2, hdisj2⟩ := hkeys'
              intro p hp heq
              rcases List.mem_append.mp hp with h | h
              · have hmem1 : p.1 ∈ l1.map Prod.fst := List.mem_map.mpr ⟨p, h, rfl⟩
                have hmem2 : p.1 ∈ modelName r c :: l2.map Prod.fst := by
                  rw [heq]; exact List.mem_cons_self _ _
                exact hdisj2 hmem1 hmem2
              · have hnm2 : modelName r c ∉ l2.map Prod.fst := (List.nodup_cons.mp hk2).1
                exact hnm2 (by rw [← heq]; exact List.mem_map.mpr ⟨p, h, rfl⟩)
            have hmem12 : ∀ p ∈ l1 ++ l2, p ∈ l1 ++ (modelName r c, prev) :: l2 := by
              intro p hp
              rcases List.mem_append.mp hp with h | h
              · exact List.mem_append.mpr (Or.inl h)
              · exact List.mem_append.mpr (Or.inr (List.mem_cons_of_mem _ h))
            have hBc : ∀ p ∈ l1 ++ l2 ++ [(underscored r prev, prev)],
                p.1 ≠ underscored r c := by
              intro p hp heq
              rcases List.mem_append.mp hp with h | h
              · have hpm := hmem12 p h
                have hp_val : p.2 ∈ (l1 ++ (modelName r c, prev) :: l2).map Prod.snd :=
                  List.mem_map.mpr ⟨p, hpm, rfl⟩
                have hp_ord : p.2 ∈ r.order := hadded p.2 (hperm.mem_iff.mp hp_val)
                rcases hshape p hpm with h1 | h2
                · exact hdisj p.2 hp_ord c hc_ord (h1.symm.trans heq)
                · have hpc : p.2 = c := hinj p.2 hp_ord c hc_ord (h2.symm.trans heq)
                  have : c ∈ (l1 ++ (modelName r c, prev) :: l2).map Prod.snd :=
                    List.mem_map.mpr ⟨p, hpm, hpc⟩
                  exact hc_not_added (hperm.mem_iff.mp this)
              · have hpe : p = (underscored r prev, prev) := List.mem_singleton.mp h
                rw [hpe] at heq
                have : prev = c := hinj prev hprev_ord c hc_ord heq
                exact hc_not_added (this ▸ hprev_added)
            have hA12 : ∀ p ∈ l1 ++ l2, p.1 ≠ underscored r prev :=
              fun p hp => hA p (hmem12 p hp)
            have hdel : dictDel ((l1 ++ (modelName r c, prev) :: l2) ++
                [(underscored r prev, prev)]) (modelName r c) =
                l1 ++ l2 ++ [(underscored r prev, prev)] := by
              simp only [dictDel, List.filter_append, List.filter_cons]
              have hf1 : l1.filter (fun p => p.1 != modelName r c) = l1 :=
                List.filter_eq_self.mpr (fun p hp => bne_iff_ne.mpr
                  (hnm_not p (List.mem_append.mpr (Or.inl hp))))
              have hf2 : l2.filter (fun p => p.1 != modelName r c) = l2 :=
                List.filter_eq_self.mpr (fun p hp => bne_iff_ne.mpr
                  (hnm_not p (List.mem_append.mpr (Or.inr hp))))
              have hf3 : ((modelName r c : String) != modelName r c) = false := by
                simp
              have hf4 : (underscored r prev != modelName r c) = true :=
                bne_iff_ne.mpr hne1
              simp [hf1, hf2, hf3, hf4, List.append_assoc]
            have hstep : availStep r (l1 ++ (modelName r c, prev) :: l2, state) c =
                (l1 ++ l2 ++ [(underscored r prev, prev)] ++ [(underscored r c, c)],
                  natAdd state c) := by
              simp only [availStep, hd, hds, hmiss, hget]
              rw [dictSet_of_fresh hA, hdel, dictSet_of_fresh hBc]
              simp
            rw [hstep]
            have hperm12 : ((l1 ++ l2).map Prod.snd ++ [prev]).Perm added := by
              have h0 := List.perm_append_singleton prev ((l1 ++ l2).map Prod.snd)
              have h1 : (prev :: (l1 ++ l2).map Prod.snd).Perm
                  (l1.map Prod.snd ++ prev :: l2.map Prod.snd) := by
                rw [List.map_append]
                exact List.perm_middle.symm
              have h2 : (l1.map Prod.snd ++ prev :: l2.map Prod.snd).Perm added := by
                simpa using hperm
              exact (h0.trans h1).trans h2
            have hperm3 : ((l1 ++ l2 ++ [(underscored r prev, prev)] ++
                [(underscored r c, c)]).map Prod.snd).Perm (added ++ [c]) := by
              have : (l1 ++ l2 ++ [(underscored r prev, prev)] ++
                  [(underscored r c, c)]).map Prod.snd =
                  ((l1 ++ l2).map Prod.snd ++ [prev]) ++ [c] := by
                simp
              rw [this]
              exact hperm12.append_right [c]
            have hkeys3 : ((l1 ++ l2 ++ [(underscored r prev, prev)] ++
                [(underscored r c, c)]).map Prod.fst).Nodup := by
              exact keys_nodup_append (keys_nodup_append hkeys12 hA12 prev) hBc c
            have hshape3 : ∀ p ∈ l1 ++ l2 ++ [(underscored r prev, prev)] ++
                [(underscored r c, c)],
                p.1 = modelName r p.2 ∨ p.1 = underscored r p.2 := by
              intro p hp
              rcases List.mem_append.mp hp with h | h
              · rcases List.mem_append.mp h with h2 | h2
                · exact hshape p (hmem12 p h2)
                · rw [List.mem_singleton.mp h2]
                  exact Or.inr rfl
              · rw [List.mem_singleton.mp h]
                exact Or.inr rfl
            have := ih (l1 ++ l2 ++ [(underscored r prev, prev)] ++
                [(underscored r c, c)]) (natAdd state c) (added ++ [c])
              hnd' hl' hadded' hand' hfresh'' hperm3 hkeys3 hshape3
            refine ⟨?_, this.2.1, this.2.2⟩
            have h1 := this.1
            have he : added ++ [c] ++ availWalk r (natAdd state c) cs =
                added ++ c :: availWalk r (natAdd state c) cs := by
              rw [List.append_assoc, List.singleton_append]
            rwa [he] at h1

lemma mem_natAdd (s : List Nat) (x y : Nat) :
    y ∈ natAdd s x ↔ y ∈ s ∨ y = x := by
  by_cases h : s.contains x
  · have hx : x ∈ s := by simpa using h
    simp only [natAdd, h, if_true]
    constructor
    · intro hy; exact Or.inl hy
    · rintro (hy | rfl) <;> [exact hy; exact hx]
  · have hx : x ∉ s := by simpa using h
    simp [natAdd, h, hx]

lemma availStep_snd (r : Registry) (models : List (String × Nat))
    (state : List Nat) (c : Nat) :
    (availStep r (models, state) c).2 =
      if addable r state c then natAdd state c else state := by
  cases hd : r.delegateOf c with
  | none => simp [availStep, addable, hd]
  | some d =>
    cases hds : r.is_datasource c with
    | true => simp [availStep, addable, hd, hds]
    | false =>
      cases hmiss : get_missing_dependencies d state with
      | true => simp [availStep, addable, hd, hds, hmiss]
      | false =>
        cases hget : dictGet models (modelName r c) with
        | none => simp [availStep, addable, hd, hds, hmiss, hget]
        | some prev => simp [availStep, addable, hd, hds, hmiss, hget]

lemma avail_fold_state (r : Registry) :
    ∀ (l : List Nat) (models : List (String × Nat)) (state : List Nat),
      (l.foldl (availStep r) (models, state)).2 = availWalkState r state l := by
  intro l
  induction l with
  | nil => intro models state; rfl
  | cons c cs ih =>
    intro models state
    rw [List.foldl_cons]
    have heta : availStep r (models, state) c =
        ((availStep r (models, state) c).1, (availStep r (models, state) c).2) := rfl
    rw [heta, availStep_snd]
    by_cases ha : addable r state c = true
    · rw [if_pos ha, ih]
      simp [availWalkState, ha]
    · have ha' : addable r state c = false := by simpa using ha
      rw [ha']
      simp only [Bool.false_eq_true, if_false]
      rw [ih]
      simp [availWalkState, ha']

lemma availWalk_sublist (r : Registry) :
    ∀ (l : List Nat) (state : List Nat), (availWalk r state l).Sublist l := by
  intro l
  induction l with
  | nil => intro state; simp [availWalk]
  | cons c cs ih =>
    intro state
    by_cases ha : addable r state c = true
    · simp only [availWalk, ha, if_true]
      exact (ih (natAdd state c)).cons₂ c
    · have ha' : addable r state c = false := by simpa using ha
      simp only [availWalk, ha', Bool.false_eq_true, if_false]
      exact (ih state).cons c

/-! ## C1 and C9: the reachability result and the model table -/

/-- The empty broker: no values, faults, or missing records. -/
def bEmpty : Broker := ⟨[], [], []⟩

/-- A registry holding one registered datasource with no requirements. -/
def rC1 : Registry :=
  { delegates := [(0, ⟨[], []⟩)]
    datasources := [0]
    rules := []
    conditions := []
    incidents := []
    simpleName := fun _ => "d"
    baseModuleName := fun _ => "m"
    qualName := fun _ => "m.d"
    order := [0]
    getComponent := fun _ => none }

/-- C1 counterexample: the claim's add-condition ("requires-all contained
in the known set and every alternative-group intersects it") holds for
component 0, and the spec-worded walk accepts it, yet
`__get_available_models` omits it from the result because it is a
datasource; non-delegate components are likewise omitted.  So the claimed
iff and the "no other component of the group is omitted" clause fail. -/
theorem reachability_omits_satisfied_datasource :
    (getAvailableModels rC1 bEmpty).map Prod.snd = [] ∧
    reachableSpec rC1 bEmpty = [0] ∧
    rC1.delegateOf 0 = some ⟨[], []⟩ ∧
    get_missing_dependencies ⟨[], []⟩ bEmpty.instKeys = false ∧
    rC1.order = [0] :=
  ⟨rfl, rfl, rfl, rfl, rfl⟩

/-- C1 (amended): with collision-free naming, the value set of the table
returned by `__get_available_models` is exactly the walk of the run order
that adds a component to the result and to the simulated known set iff it
is a registered, non-datasource delegate whose requires-all is contained
in the known set and each of whose alternative-groups intersects it; and
the final simulated known set is the corresponding walk state. -/
theorem getAvailableModels_values_spec (r : Registry) (b : Broker)
    (hnd : r.order.Nodup) (hgood : GoodNames r) :
    ((getAvailableModels r b).map Prod.snd).Perm
        (availWalk r b.instKeys r.order) ∧
    availableState r b = availWalkState r b.instKeys r.order := by
  constructor
  · have H := avail_fold_values r hgood r.order [] b.instKeys [] hnd
      (fun x hx => hx) (fun x hx => absurd hx (List.not_mem_nil x))
      List.nodup_nil (fun x _ hx => (List.not_mem_nil x) hx)
      (List.Perm.refl []) List.nodup_nil
      (fun p hp => absurd hp (List.not_mem_nil p))
    simpa [getAvailableModels] using H.1
  · exact avail_fold_state r r.order [] b.instKeys

/-- A registry where components 0 and 1 share the friendly name "x" and
names are collision-free; used to instantiate the amended C1 theorem. -/
def rC1w : Registry :=
  { delegates := [(0, ⟨[], []⟩), (1, ⟨[], []⟩)]
    datasources := []
    rules := []
    conditions := []
    incidents := []
    simpleName := fun _ => "x"
    baseModuleName := fun _ => "m"
    qualName := fun c => if c == 0 then "p.x" else "q.x"
    order := [0, 1]
    getComponent := fun _ => none }

/-- Witness for the amended C1 theorem at a concrete registry with a
friendly-name collision. -/
theorem getAvailableModels_values_spec_witness :
    ((getAvailableModels rC1w bEmpty).map Prod.snd).Perm
        (availWalk rC1w bEmpty.instKeys rC1w.order) ∧
    availableState rC1w bEmpty =
        availWalkState rC1w bEmpty.instKeys rC1w.order :=
  getAvailableModels_values_spec rC1w bEmpty (by decide) ⟨by decide, by decide⟩

/-- A registry where components 0 and 1 share the friendly name "x" and
component 2, a rule, has friendly name "p_x" — equal to the underscored
qualified name of component 0. -/
def rC9 : Registry :=
  { delegates := [(0, ⟨[], []⟩), (1, ⟨[], []⟩), (2, ⟨[], []⟩)]
    datasources := []
    rules := [2]
    conditions := []
    incidents := []
    simpleName := fun _ => "x"
    baseModuleName := fun _ => "p"
    qualName := fun c => if c == 0 then "p.x" else if c == 1 then "q.x" else "w.p.x"
    order := [0, 1, 2]
    getComponent := fun _ => none }

/-- C9 counterexample: components 0 and 1 share the friendly name "x", so
the code re-keys 0 under its underscored qualified name "p_x".  Later,
component 2's friendly name is also "p_x"; the collision handling
re-assigns 0 to the key it already occupies and then deletes that key,
so component 0 — the earlier of a pair that shared a friendly name, and
whose requirements are satisfied — does not remain present in the final
table. -/
theorem model_table_drops_rekeyed_component :
    modelName rC9 0 = modelName rC9 1 ∧
    addable rC9 [] 0 = true ∧
    getAvailableModels rC9 bEmpty = [("q_x", 1), ("w_p_x", 2)] ∧
    0 ∉ (getAvailableModels rC9 bEmpty).map Prod.snd := by
  refine ⟨rfl, rfl, rfl, ?_⟩
  decide

/-- C9 (amended): with collision-free naming — underscored qualified
names pairwise distinct and never equal to a friendly name — the table is
injective in both directions (no key twice, no component twice), every
key is its component's friendly name or underscored qualified name, and
every component accepted by the walk remains present, so both components
of a friendly-name collision survive. -/
theorem model_table_injective (r : Registry) (b : Broker)
    (hnd : r.order.Nodup) (hgood : GoodNames r) :
    ((getAvailableModels r b).map Prod.fst).Nodup ∧
    ((getAvailableModels r b).map Prod.snd).Nodup ∧
    (∀ p ∈ getAvailableModels r b,
        p.1 = modelName r p.2 ∨ p.1 = underscored r p.2) ∧
    (∀ c ∈ availWalk r b.instKeys r.order,
        c ∈ (getAvailableModels r b).map Prod.snd) := by
  have H := avail_fold_values r hgood r.order [] b.instKeys [] hnd
    (fun x hx => hx) (fun x hx => absurd hx (List.not_mem_nil x))
    List.nodup_nil (fun x _ hx => (List.not_mem_nil x) hx)
    (List.Perm.refl []) List.nodup_nil
    (fun p hp => absurd hp (List.not_mem_nil p))
  have hperm : ((getAvailableModels r b).map Prod.snd).Perm
      (availWalk r b.instKeys r.order) := by
    simpa [getAvailableModels] using H.1
  refine ⟨?_, ?_, ?_, ?_⟩
  · simpa [getAvailableModels] using H.2.1
  · exact hperm.nodup_iff.mpr
      (hnd.sublist (availWalk_sublist r r.order b.instKeys))
  · intro p hp
    exact H.2.2 p (by simpa [getAvailableModels] using hp)
  · intro c hc
    exact hperm.mem_iff.mpr hc

/-- Witness for the amended C9 theorem at a concrete registry with a
friendly-name collision and collision-free underscored names. -/
theorem model_table_injective_witness :
    ((getAvailableModels rC1w bEmpty).map Prod.fst).Nodup ∧
    ((getAvailableModels rC1w bEmpty).map Prod.snd).Nodup ∧
    (∀ p ∈ getAvailableModels rC1w bEmpty,
        p.1 = modelName rC1w p.2 ∨ p.1 = underscored rC1w p.2) ∧
    (∀ c ∈ availWalk rC1w bEmpty.instKeys rC1w.order,
        c ∈ (getAvailableModels rC1w bEmpty).map Prod.snd) :=
  model_table_injective rC1w bEmpty (by decide) ⟨by decide, by decide⟩

/-! ## C2: the simulation's initial known set -/

lemma mem_instKeys (b : Broker) (c : Nat) :
    c ∈ b.instKeys ↔ b.holds c = true := by
  constructor
  · intro h
    obtain ⟨p, hp, hpc⟩ := List.mem_map.mp h
    unfold Broker.holds alookup
    cases hfind : b.instances.find? (fun q => q.1 == c) with
    | none =>
      rw [List.find?_eq_none] at hfind
      exact absurd (by simpa using hpc) (by simpa using hfind p hp)
    | some q => simp
  · intro h
    unfold Broker.holds alookup at h
    cases hfind : b.instances.find? (fun q => q.1 == c) with
    | none => rw [hfind] at h; simp at h
    | some q =>
      have hqmem := List.mem_of_find?_eq_some hfind
      have hqc : (q.1 == c) = true := by
        have := @List.find?_some _ (fun q => q.1 == c) q b.instances hfind
        simpa using this
      exact List.mem_map.mpr ⟨q, hqmem, by simpa using hqc⟩

lemma mem_values_dictSet {m : List (String × Nat)} {k : String} {v x : Nat}
    (hx : x ∈ (dictSet m k v).map Prod.snd) :
    x ∈ m.map Prod.snd ∨ x = v := by
  by_cases h : m.any (fun p => p.1 == k) = true
  · rw [dictSet, if_pos h] at hx
    rw [List.mem_map] at hx
    obtain ⟨p, hp, hpx⟩ := hx
    rw [List.mem_map] at hp
    obtain ⟨q, hq, hqp⟩ := hp
    by_cases hk : (q.1 == k) = true
    · rw [if_pos hk] at hqp
      rw [← hqp] at hpx
      exact Or.inr hpx.symm
    · rw [if_neg hk] at hqp
      rw [← hqp] at hpx
      exact Or.inl (List.mem_map.mpr ⟨q, hq, hpx⟩)
  · rw [dictSet, if_neg h] at hx
    rw [List.map_append, List.mem_append] at hx
    rcases hx with h1 | h1
    · exact Or.inl h1
    · simp only [List.map_cons, List.map_nil, List.mem_singleton] at h1
      exact Or.inr h1

lemma mem_values_dictDel {m : List (String × Nat)} {k : String} {x : Nat}
    (hx : x ∈ (dictDel m k).map Prod.snd) : x ∈ m.map Prod.snd := by
  simp only [List.mem_map] at hx ⊢
  obtain ⟨p, hp, rfl⟩ := hx
  exact ⟨p, (List.filter_sublist m).mem hp, rfl⟩

lemma mem_values_availStep {r : Registry} {models : List (String × Nat)}
    {state : List Nat} {c x : Nat}
    (hx : x ∈ (availStep r (models, state) c).1.map Prod.snd) :
    x ∈ models.map Prod.snd ∨ (x = c ∧ addable r state c = true) := by
  cases hd : r.delegateOf c with
  | none =>
    rw [show (availStep r (models, state) c).1 = models by simp [availStep, hd]] at hx
    exact Or.inl hx
  | some d =>
    cases hds : r.is_datasource c with
    | true =>
      rw [show (availStep r (models, state) c).1 = models by
        simp [availStep, hd, hds]] at hx
      exact Or.inl hx
    | false =>
      cases hmiss : get_missing_dependencies d state with
      | true =>
        rw [show (availStep r (models, state) c).1 = models by
          simp [availStep, hd, hds, hmiss]] at hx
        exact Or.inl hx
      | false =>
        have haddable : addable r state c = true := by
          simp [addable, hd, hds, hmiss]
        cases hget : dictGet models (modelName r c) with
        | none =>
          rw [show (availStep r (models, state) c).1 =
              dictSet models (modelName r c) c by
            simp [availStep, hd, hds, hmiss, hget]] at hx
          rcases mem_values_dictSet hx with h | h
          · exact Or.inl h
          · exact Or.inr ⟨h, haddable⟩
        | some prev =>
          rw [show (availStep r (models, state) c).1 =
              dictSet (dictDel (dictSet models (underscored r prev) prev)
                (modelName r c)) (underscored r c) c by
            simp [availStep, hd, hds, hmiss, hget]] at hx
          rcases mem_values_dictSet hx with h | h
          · rcases mem_values_dictSet (mem_values_dictDel h) with h2 | h2
            · exact Or.inl h2
            · rw [h2]
              exact Or.inl (List.mem_map.mpr
                ⟨(modelName r c, prev), dictGet_some_mem hget, rfl⟩)
          · exact Or.inr ⟨h, haddable⟩

lemma mem_values_fold (r : Registry) (Q : Nat → Prop)
    (hQ : ∀ state c, (∀ x ∈ state, Q x) → addable r state c = true → Q c) :
    ∀ (l : List Nat) (models : List (String × Nat)) (state : List Nat),
      (∀ x ∈ state, Q x) →
      ∀ x ∈ (l.foldl (availStep r) (models, state)).1.map Prod.snd,
        x ∈ models.map Prod.snd ∨
          ∃ S, (∀ y ∈ S, Q y) ∧ addable r S x = true := by
  intro l
  induction l with
  | nil =>
    intro models state _ x hx
    exact Or.inl hx
  | cons c cs ih =>
    intro models state hstate x hx
    rw [List.foldl_cons] at hx
    have heta : availStep r (models, state) c =
        ((availStep r (models, state) c).1, (availStep r (models, state) c).2) := rfl
    rw [heta, availStep_snd] at hx
    by_cases ha : addable r state c = true
    · rw [if_pos ha] at hx
      have hstate' : ∀ y ∈ natAdd state c, Q y := by
        intro y hy
        rcases (mem_natAdd state c y).mp hy with h | h
        · exact hstate y h
        · exact h ▸ hQ state c hstate ha
      rcases ih _ (natAdd state c) hstate' x hx with h | h
      · rcases mem_values_availStep h with h2 | h2
        · exact Or.inl h2
        · refine Or.inr ⟨state, hstate, ?_⟩
          rw [h2.1]
          exact h2.2
      · exact Or.inr h
    · have ha' : addable r state c = false := by simpa using ha
      rw [ha'] at hx
      simp only [Bool.false_eq_true, if_false] at hx
      rcases ih _ state hstate x hx with h | h
      · rcases mem_values_availStep h with h2 | h2
        · exact Or.inl h2
        · rw [h2.1] at h2
          exact absurd h2.2 (by simp [ha'])
      · exact Or.inr h

lemma addable_not_datasource {r : Registry} {S : List Nat} {c : Nat}
    (ha : addable r S c = true) : r.is_datasource c = false := by
  unfold addable at ha
  cases hd : r.delegateOf c with
  | none => rw [hd] at ha; simp at ha
  | some d =>
    rw [hd] at ha
    simp only [Bool.and_eq_true, Bool.not_eq_true'] at ha
    exact ha.1

lemma addable_req_mem {r : Registry} {S : List Nat} {c : Nat} {d : Delegate}
    (hd : r.delegateOf c = some d) (ha : addable r S c = true) :
    ∀ dep ∈ d.req, dep ∈ S := by
  unfold addable at ha
  rw [hd] at ha
  simp only [Bool.and_eq_true, Bool.not_eq_true'] at ha
  have hmiss := ha.2
  simp only [get_missing_dependencies, Bool.or_eq_false_iff,
    Bool.not_eq_false'] at hmiss
  intro dep hdep
  have := List.all_eq_true.mp hmiss.1 dep hdep
  simpa using this

/-- C2: the simulated known set is seeded as exactly the components
holding an actual computed value in the broker (`broker.instances`); a
component resolved to a fault or missing-dependency record without a
value is not in it; and consequently a component requiring a value-less,
faulted datasource — which the walk can never accept again — never appears in
the availability result. -/
theorem simulation_initial_known_spec (r : Registry) (b : Broker) :
    (∀ c, c ∈ b.instKeys ↔ b.holds c = true) ∧
    (∀ c, (b.hasException c = true ∨ b.hasMissing c = true) →
        b.holds c = false → c ∉ b.instKeys) ∧
    (∀ c d dep, r.delegateOf c = some d → dep ∈ d.req →
        r.is_datasource dep = true → b.holds dep = false →
        c ∉ (getAvailableModels r b).map Prod.snd) := by
  refine ⟨fun c => mem_instKeys b c, ?_, ?_⟩
  · intro c _ hv hc
    rw [mem_instKeys, hv] at hc
    simp at hc
  · intro c d dep hd hdep hds hv hc
    have hQ : ∀ S c', (∀ x ∈ S, b.holds x = true ∨ r.is_datasource x = false) →
        addable r S c' = true →
        b.holds c' = true ∨ r.is_datasource c' = false :=
      fun S c' _ ha => Or.inr (addable_not_datasource ha)
    have hseed : ∀ x ∈ b.instKeys,
        b.holds x = true ∨ r.is_datasource x = false :=
      fun x hx => Or.inl ((mem_instKeys b x).mp hx)
    have H := mem_values_fold r
      (fun x => b.holds x = true ∨ r.is_datasource x = false)
      hQ r.order [] b.instKeys hseed c
      (by simpa [getAvailableModels] using hc)
    rcases H with h | ⟨S, hS, ha⟩
    · simp at h
    · have hdepS : dep ∈ S := addable_req_mem hd ha dep hdep
      rcases hS dep hdepS with h | h
      · rw [hv] at h
        simp at h
      · rw [hds] at h
        simp at h

/-- A registry where component 5 requires the datasource 3, and a broker
where 3 is resolved to a fault with no value. -/
def rC2 : Registry :=
  { delegates := [(3, ⟨[], []⟩), (5, ⟨[3], []⟩)]
    datasources := [3]
    rules := []
    conditions := []
    incidents := []
    simpleName := fun c => if c == 3 then "a" else "b"
    baseModuleName := fun _ => "m"
    qualName := fun c => if c == 3 then "m.a" else "m.b"
    order := [3, 5]
    getComponent := fun _ => none }

/-- Broker in which datasource 3 raised a fault and holds no value. -/
def bC2 : Broker := ⟨[], [(3, 7)], []⟩

/-- Witness for C2 at a concrete broker holding a fault for datasource 3
and a component 5 requiring it. -/
theorem simulation_initial_known_spec_witness :
    (3 ∈ bC2.instKeys ↔ bC2.holds 3 = true) ∧
    (3 ∉ bC2.instKeys) ∧
    (5 ∉ (getAvailableModels rC2 bC2).map Prod.snd) :=
  ⟨(simulation_initial_known_spec rC2 bC2).1 3,
   (simulation_initial_known_spec rC2 bC2).2.1 3 (Or.inl rfl) rfl,
   (simulation_initial_known_spec rC2 bC2).2.2 5 ⟨[3], []⟩ 3 rfl (by decide) rfl rfl⟩

/-! ## Embedding of the Selective Evaluator (shell.py lines 187-247)

The scheduler `dr.run`, the dependency-graph construction behind it, and
`dr.get_component` are parts of the `dr` engine whose code is not in this
repository snapshot; they are modelled from the spec below. -/

/-- Record a successful result (spec §4.2 `put`). -/
def Broker.put (b : Broker) (c v : Nat) : Broker :=
  { b with instances := b.instances ++ [(c, v)] }

/-- Record a captured fault (spec §4.2 `put_fault`). -/
def Broker.put_fault (b : Broker) (c e : Nat) : Broker :=
  { b with exceptions := b.exceptions ++ [(c, e)] }

/-- Record a missing-dependency diagnosis holding the unmet requires-all
set and the unsatisfied alternative-groups verbatim (spec §4.2, §7). -/
def Broker.put_missing (b : Broker) (c : Nat) (req : List Nat)
    (alo : List (List Nat)) : Broker :=
  { b with missing_requirements :=
      b.missing_requirements ++ [(c, (req, alo))] }

/-- Modelled from the spec: one step of the Scheduler `dr.run`
(spec §4.3), whose code is not in this snapshot.  Skip the component if
already resolved; record a missing-dependency diagnosis if its
requirements are not satisfiable against the broker's current values;
otherwise invoke the component body, recording the produced value or the
captured fault.  The second accumulator component lists the components
whose bodies were invoked. -/
def runStep (r : Registry) (bodies : Nat → Broker → Except Nat Nat)
    (acc : Broker × List Nat) (c : Nat) : Broker × List Nat :=
  if acc.1.resolved c then acc
  else
    match r.delegateOf c with
    | none => acc
    | some d =>
      if get_missing_dependencies d acc.1.instKeys then
        (acc.1.put_missing c
            (d.req.filter (fun x => ! acc.1.instKeys.contains x))
            (d.at_least_one.filter
              (fun g => ! g.any (fun x => acc.1.instKeys.contains x))),
          acc.2)
      else
        match bodies c acc.1 with
        | .error e => (acc.1.put_fault c e, acc.2 ++ [c])
        | .ok v => (acc.1.put c v, acc.2 ++ [c])

/-- Modelled from the spec: the Scheduler `dr.run` over a target list
already in dependency order; returns the resulting broker together with
the components whose bodies were invoked. -/
def runSchedule (r : Registry) (bodies : Nat → Broker → Except Nat Nat)
    (targets : List Nat) (b : Broker) : Broker × List Nat :=
  targets.foldl (runStep r bodies) (b, [])

/-- Immediate dependency identities declared by a delegate. -/
def depsOf (d : Delegate) : List Nat := d.req ++ d.at_least_one.flatten

/-- One expansion step of the dependency closure. -/
def closeOnce (r : Registry) (s : List Nat) : List Nat :=
  s.foldl (fun acc c =>
    (match r.delegateOf c with
     | some d => depsOf d
     | none => []).foldl natAdd acc) s

/-- Iterated closure expansion. -/
def closureIter : Nat → Registry → List Nat → List Nat
  | 0, _, s => s
  | n + 1, r, s => closureIter n r (closeOnce r s)

/-- Modelled from the spec: the transitive dependency closure of one
component (spec §3, "Dependency Graph"), absent from this snapshot;
one expansion per registered delegate reaches the fixpoint. -/
def depClosure (r : Registry) (c : Nat) : List Nat :=
  closureIter r.delegates.length r [c]

/-- Modelled from the spec: the target order `dr.run(comp, broker)`
executes — the group's run order restricted to the component's closure. -/
def closureOrder (r : Registry) (c : Nat) : List Nat :=
  r.order.filter (fun x => (depClosure r c).contains x)

/-- The observable outcome of one `__Models.evaluate` call: the returned
value, the broker afterwards, the requested-set contents, the target
lists passed to the scheduler, and whether failure diagnostics were
printed. -/
structure EvalResult where
  value : Option Nat
  broker : Broker
  requested : List (String × Nat)
  ran : List (List Nat)
  diagnostics : Bool
deriving DecidableEq, Repr

/-- A trivial component body used to instantiate concrete runs. -/
def bodies0 : Nat → Broker → Except Nat Nat := fun _ _ => Except.ok 0

/-- Source `__Models.evaluate` (shell.py lines 215-247): resolve the name
through the model table and then the registry; record the request unless
the component is a rule; return the broker's value if the component holds
one; surface diagnostics for a fault or missing record; otherwise run the
scheduler on the component's closure and return
`dr.run(comp, broker).get(comp)`, printing diagnostics if the component
resolved to a fault or missing record. -/
def evaluate (r : Registry) (bodies : Nat → Broker → Except Nat Nat)
    (models : List (String × Nat)) (requested : List (String × Nat))
    (name : String) (b : Broker) : EvalResult :=
  match (dictGet models name).or (r.getComponent name) with
  | none => ⟨none, b, requested, [], false⟩
  | some comp =>
    let req2 := if r.is_rule comp then requested
      else requested ++ [(name, comp)]
    if b.holds comp then ⟨b.get comp, b, req2, [], false⟩
    else if b.hasException comp || b.hasMissing comp then
      ⟨none, b, req2, [], true⟩
    else
      let targets := closureOrder r comp
      let res := runSchedule r bodies targets b
      let diag := ! res.1.holds comp &&
        (res.1.hasException comp || res.1.hasMissing comp)
      ⟨res.1.get comp, res.1, req2, [targets], diag⟩

/-- The task list of `__Models.evaluate_all` (shell.py lines 199-206):
values of the model table whose fully qualified name passes the match
predicate and fails the ignore predicate, and which are not yet resolved
(value, fault, or missing record) in the broker. -/
def evaluate_all_tasks (r : Registry) (models : List (String × Nat))
    (matchP ignoreP : String → Bool) (b : Broker) : List Nat :=
  (models.map Prod.snd).filter (fun c =>
    matchP (r.qualName c) && ! ignoreP (r.qualName c) && ! b.resolved c)

/-- Source `__Models.evaluate_all` (shell.py lines 187-213): build the
task list from the model table; if it is empty return with no scheduler
invocation, else pass the whole list to a single scheduler invocation. -/
def evaluate_all (r : Registry) (bodies : Nat → Broker → Except Nat Nat)
    (models : List (String × Nat)) (matchP ignoreP : String → Bool)
    (b : Broker) : Broker × List (List Nat) :=
  let tasks := evaluate_all_tasks r models matchP ignoreP b
  if tasks.isEmpty then (b, [])
  else ((runSchedule r bodies tasks b).1, [tasks])

lemma alookup_append_some {α : Type} {l1 : List (Nat × α)} {c : Nat} {v : α}
    (l2 : List (Nat × α)) (h : alookup l1 c = some v) :
    alookup (l1 ++ l2) c = some v := by
  unfold alookup at h ⊢
  rw [List.find?_append]
  obtain ⟨p, hp, hpv⟩ := Option.map_eq_some'.mp h
  rw [hp]
  simpa using hpv

lemma alookup_append_none {α : Type} {l1 : List (Nat × α)} {c : Nat}
    (v : α) (h : alookup l1 c = none) :
    alookup (l1 ++ [(c, v)]) c = some v := by
  unfold alookup at h ⊢
  rw [List.find?_append]
  rw [Option.map_eq_none'] at h
  rw [h]
  simp

/-- The second broker holds every entry of the first, unchanged, in each
of the three tables. -/
def Broker.Extends (b2 b1 : Broker) : Prop :=
  (∀ c v, alookup b1.instances c = some v → alookup b2.instances c = some v) ∧
  (∀ c v, alookup b1.exceptions c = some v → alookup b2.exceptions c = some v) ∧
  (∀ c m, alookup b1.missing_requirements c = some m →
    alookup b2.missing_requirements c = some m)

lemma extends_refl (b : Broker) : b.Extends b :=
  ⟨fun _ _ h => h, fun _ _ h => h, fun _ _ h => h⟩

lemma extends_trans {b3 b2 b1 : Broker} (h32 : b3.Extends b2)
    (h21 : b2.Extends b1) : b3.Extends b1 :=
  ⟨fun c v h => h32.1 c v (h21.1 c v h),
   fun c v h => h32.2.1 c v (h21.2.1 c v h),
   fun c m h => h32.2.2 c m (h21.2.2 c m h)⟩

lemma put_extends (b : Broker) (c v : Nat) : (b.put c v).Extends b :=
  ⟨fun c' v' h => alookup_append_some _ h, fun _ _ h => h, fun _ _ h => h⟩

lemma put_fault_extends (b : Broker) (c e : Nat) : (b.put_fault c e).Extends b :=
  ⟨fun _ _ h => h, fun c' v' h => alookup_append_some _ h, fun _ _ h => h⟩

lemma put_missing_extends (b : Broker) (c : Nat) (req : List Nat)
    (alo : List (List Nat)) : (b.put_missing c req alo).Extends b :=
  ⟨fun _ _ h => h, fun _ _ h => h, fun c' m h => alookup_append_some _ h⟩

lemma holds_of_extends {b2 b1 : Broker} (h : b2.Extends b1) {c : Nat}
    (hc : b1.holds c = true) : b2.holds c = true := by
  unfold Broker.holds at hc ⊢
  obtain ⟨v, hv⟩ := Option.isSome_iff_exists.mp hc
  exact Option.isSome_iff_exists.mpr ⟨v, h.1 c v hv⟩

lemma resolved_of_extends {b2 b1 : Broker} (h : b2.Extends b1) {c : Nat}
    (hc : b1.resolved c = true) : b2.resolved c = true := by
  unfold Broker.resolved Broker.hasException Broker.hasMissing at hc ⊢
  simp only [Bool.or_eq_true] at hc ⊢
  rcases hc with (h1 | h1) | h1
  · exact Or.inl (Or.inl (holds_of_extends h h1))
  · obtain ⟨v, hv⟩ := Option.isSome_iff_exists.mp h1
    exact Or.inl (Or.inr (Option.isSome_iff_exists.mpr ⟨v, h.2.1 c v hv⟩))
  · obtain ⟨m, hm⟩ := Option.isSome_iff_exists.mp h1
    exact Or.inr (Option.isSome_iff_exists.mpr ⟨m, h.2.2 c m hm⟩)

lemma runStep_extends (r : Registry) (bodies : Nat → Broker → Except Nat Nat)
    (acc : Broker × List Nat) (c : Nat) :
    (runStep r bodies acc c).1.Extends acc.1 := by
  unfold runStep
  by_cases hres : acc.1.resolved c = true
  · rw [if_pos hres]; exact extends_refl _
  · rw [if_neg hres]
    cases hd : r.delegateOf c with
    | none => exact extends_refl _
    | some d =>
      dsimp only
      by_cases hmiss : get_missing_dependencies d acc.1.instKeys = true
      · rw [if_pos hmiss]
        exact put_missing_extends _ _ _ _
      · rw [if_neg hmiss]
        cases hb : bodies c acc.1 with
        | error e => exact put_fault_extends _ _ _
        | ok v => exact put_extends _ _ _

lemma foldl_runStep_extends (r : Registry)
    (bodies : Nat → Broker → Except Nat Nat) :
    ∀ (targets : List Nat) (acc : Broker × List Nat),
      (targets.foldl (runStep r bodies) acc).1.Extends acc.1 := by
  intro targets
  induction targets with
  | nil => intro acc; exact extends_refl _
  | cons t ts ih =>
    intro acc
    rw [List.foldl_cons]
    exact extends_trans (ih _) (runStep_extends r bodies acc t)

lemma runSchedule_extends (r : Registry)
    (bodies : Nat → Broker → Except Nat Nat) (targets : List Nat)
    (b : Broker) : (runSchedule r bodies targets b).1.Extends b :=
  foldl_runStep_extends r bodies targets (b, [])

lemma runStep_invoked_sub (r : Registry)
    (bodies : Nat → Broker → Except Nat Nat) (acc : Broker × List Nat)
    (c : Nat) :
    ∀ y ∈ (runStep r bodies acc c).2,
      y ∈ acc.2 ∨ (y = c ∧ acc.1.resolved c = false) := by
  unfold runStep
  by_cases hres : acc.1.resolved c = true
  · rw [if_pos hres]; intro y hy; exact Or.inl hy
  · rw [if_neg hres]
    have hres' : acc.1.resolved c = false := by simpa using hres
    cases hd : r.delegateOf c with
    | none => intro y hy; exact Or.inl hy
    | some d =>
      dsimp only
      by_cases hmiss : get_missing_dependencies d acc.1.instKeys = true
      · rw [if_pos hmiss]; intro y hy; exact Or.inl hy
      · rw [if_neg hmiss]
        cases hb : bodies c acc.1 with
        | error e =>
          intro y hy
          rcases List.mem_append.mp hy with h | h
          · exact Or.inl h
          · exact Or.inr ⟨List.mem_singleton.mp h, hres'⟩
        | ok v =>
          intro y hy
          rcases List.mem_append.mp hy with h | h
          · exact Or.inl h
          · exact Or.inr ⟨List.mem_singleton.mp h, hres'⟩

lemma foldl_runStep_invoked (r : Registry)
    (bodies : Nat → Broker → Except Nat Nat) (b : Broker) :
    ∀ (targets : List Nat) (acc : Broker × List Nat),
      acc.1.Extends b → (∀ x ∈ acc.2, b.resolved x = false) →
      ∀ x ∈ (targets.foldl (runStep r bodies) acc).2,
        b.resolved x = false := by
  intro targets
  induction targets with
  | nil => intro acc _ hacc x hx; exact hacc x hx
  | cons t ts ih =>
    intro acc hext hacc x hx
    rw [List.foldl_cons] at hx
    refine ih (runStep r bodies acc t)
      (extends_trans (runStep_extends r bodies acc t) hext) ?_ x hx
    intro y hy
    rcases runStep_invoked_sub r bodies acc t y hy with h | ⟨rfl, hresf⟩
    · exact hacc y h
    · by_cases hb2 : b.resolved y = true
      · exact absurd (resolved_of_extends hext hb2) (by simp [hresf])
      · simpa using hb2

lemma runSchedule_invoked (r : Registry)
    (bodies : Nat → Broker → Except Nat Nat) (targets : List Nat)
    (b : Broker) :
    ∀ x ∈ (runSchedule r bodies targets b).2, b.resolved x = false :=
  foldl_runStep_invoked r bodies b targets (b, []) (extends_refl b)
    (fun x hx => absurd hx (List.not_mem_nil x))

lemma resolved_false_parts {b : Broker} {c : Nat} (h : b.resolved c = false) :
    b.holds c = false ∧ b.hasException c = false ∧ b.hasMissing c = false := by
  unfold Broker.resolved at h
  simp only [Bool.or_eq_false_iff] at h
  exact ⟨h.1.1, h.1.2, h.2⟩

lemma alookup_append_self {α : Type} (l : List (Nat × α)) (c : Nat) (v : α) :
    (alookup (l ++ [(c, v)]) c).isSome = true := by
  unfold alookup
  rw [List.find?_append]
  cases hf : l.find? (fun p => p.1 == c) with
  | some p => simp [Option.or]
  | none => simp [Option.or]

lemma put_resolves (b : Broker) (c v : Nat) : (b.put c v).resolved c = true := by
  simp [Broker.resolved, Broker.holds, Broker.put, alookup_append_self]

lemma put_fault_resolves (b : Broker) (c e : Nat) :
    (b.put_fault c e).resolved c = true := by
  simp [Broker.resolved, Broker.hasException, Broker.put_fault,
    alookup_append_self]

lemma put_missing_resolves (b : Broker) (c : Nat) (req : List Nat)
    (alo : List (List Nat)) : (b.put_missing c req alo).resolved c = true := by
  simp [Broker.resolved, Broker.hasMissing, Broker.put_missing,
    alookup_append_self]

lemma runStep_resolves {r : Registry} {bodies : Nat → Broker → Except Nat Nat}
    {acc : Broker × List Nat} {c : Nat} {d : Delegate}
    (hd : r.delegateOf c = some d) :
    (runStep r bodies acc c).1.resolved c = true := by
  unfold runStep
  by_cases hres : acc.1.resolved c = true
  · rw [if_pos hres]; exact hres
  · rw [if_neg hres, hd]
    dsimp only
    by_cases hmiss : get_missing_dependencies d acc.1.instKeys = true
    · rw [if_pos hmiss]
      exact put_missing_resolves _ _ _ _
    · rw [if_neg hmiss]
      cases bodies c acc.1 with
      | error e => exact put_fault_resolves _ _ _
      | ok v => exact put_resolves _ _ _

lemma foldl_runStep_resolves (r : Registry)
    (bodies : Nat → Broker → Except Nat Nat) :
    ∀ (targets : List Nat) (acc : Broker × List Nat) (c : Nat) (d : Delegate),
      r.delegateOf c = some d → c ∈ targets →
      (targets.foldl (runStep r bodies) acc).1.resolved c = true := by
  intro targets
  induction targets with
  | nil => intro acc c d _ hc; exact absurd hc (List.not_mem_nil c)
  | cons t ts ih =>
    intro acc c d hd hc
    rw [List.foldl_cons]
    rcases List.mem_cons.mp hc with rfl | h
    · exact resolved_of_extends (foldl_runStep_extends r bodies ts _)
        (runStep_resolves hd)
    · exact ih _ c d hd h

lemma mem_foldl_natAdd :
    ∀ (l acc : List Nat) (x : Nat), x ∈ acc → x ∈ l.foldl natAdd acc := by
  intro l
  induction l with
  | nil => intro acc x hx; exact hx
  | cons a as ih =>
    intro acc x hx
    rw [List.foldl_cons]
    exact ih _ x ((mem_natAdd acc a x).mpr (Or.inl hx))

lemma mem_closeOnce (r : Registry) :
    ∀ (s : List Nat) (x : Nat), x ∈ s → x ∈ closeOnce r s := by
  have hg : ∀ (l acc : List Nat) (x : Nat), x ∈ acc →
      x ∈ l.foldl (fun acc c =>
        (match r.delegateOf c with
         | some d => depsOf d
         | none => []).foldl natAdd acc) acc := by
    intro l
    induction l with
    | nil => intro acc x hx; exact hx
    | cons a as ih =>
      intro acc x hx
      rw [List.foldl_cons]
      exact ih _ x (mem_foldl_natAdd _ _ x hx)
  intro s x hx
  exact hg s s x hx

lemma mem_closureIter (r : Registry) :
    ∀ (n : Nat) (s : List Nat) (x : Nat), x ∈ s → x ∈ closureIter n r s := by
  intro n
  induction n with
  | zero => intro s x hx; exact hx
  | succ n ih => intro s x hx; exact ih _ x (mem_closeOnce r s x hx)

lemma mem_depClosure_self (r : Registry) (c : Nat) : c ∈ depClosure r c :=
  mem_closureIter r _ [c] c (List.mem_singleton.mpr rfl)

lemma mem_closureOrder_self {r : Registry} {c : Nat} (h : c ∈ r.order) :
    c ∈ closureOrder r c := by
  unfold closureOrder
  rw [List.mem_filter]
  exact ⟨h, by simpa using mem_depClosure_self r c⟩

/-! ## C4, C5, C6, C10: the Selective Evaluator -/

/-- C10: evaluating a name that is neither a key of the model table nor
resolvable to a registered component returns no value, performs no
scheduler invocation, surfaces no diagnostics, and leaves the broker and
the requested set unchanged. -/
theorem evaluate_unknown_name (r : Registry)
    (bodies : Nat → Broker → Except Nat Nat)
    (models requested : List (String × Nat)) (name : String) (b : Broker)
    (h1 : dictGet models name = none) (h2 : r.getComponent name = none) :
    evaluate r bodies models requested name b =
      ⟨none, b, requested, [], false⟩ := by
  unfold evaluate
  rw [h1, h2]
  rfl

/-- C4: when the evaluator resolves the name to a component: an
already-computed value is returned as is, with no scheduler invocation
and the broker untouched; a component resolved to a fault or missing
record yields no value but surfaced diagnostics, again without running
the scheduler or touching the broker; an unresolved component causes
exactly one scheduler invocation on the component's closure in run order,
after which its value in the resulting broker is returned — and if the
component is a registered delegate in the run order, it ends resolved. -/
theorem evaluate_contract (r : Registry)
    (bodies : Nat → Broker → Except Nat Nat)
    (models requested : List (String × Nat)) (name : String) (b : Broker)
    (comp : Nat)
    (hc : (dictGet models name).or (r.getComponent name) = some comp) :
    (b.holds comp = true →
      evaluate r bodies models requested name b =
        ⟨b.get comp, b,
          if r.is_rule comp then requested else requested ++ [(name, comp)],
          [], false⟩) ∧
    (b.holds comp = false →
      (b.hasException comp || b.hasMissing comp) = true →
      evaluate r bodies models requested name b =
        ⟨none, b,
          if r.is_rule comp then requested else requested ++ [(name, comp)],
          [], true⟩) ∧
    (b.resolved comp = false →
      (evaluate r bodies models requested name b).ran =
          [closureOrder r comp] ∧
      (evaluate r bodies models requested name b).broker =
          (runSchedule r bodies (closureOrder r comp) b).1 ∧
      (evaluate r bodies models requested name b).value =
          (runSchedule r bodies (closureOrder r comp) b).1.get comp) ∧
    (∀ d, b.resolved comp = false → r.delegateOf comp = some d →
      comp ∈ r.order →
      (evaluate r bodies models requested name b).broker.resolved comp =
        true) := by
  refine ⟨?_, ?_, ?_, ?_⟩
  · intro hv
    unfold evaluate
    rw [hc]
    dsimp only
    rw [if_pos hv]
  · intro hv hex
    unfold evaluate
    rw [hc]
    dsimp only
    rw [if_neg (by simp [hv]), if_pos hex]
  · intro hres
    obtain ⟨hv, hex, hm⟩ := resolved_false_parts hres
    unfold evaluate
    rw [hc]
    dsimp only
    rw [if_neg (by simp [hv]), if_neg (by simp [hex, hm])]
    exact ⟨rfl, rfl, rfl⟩
  · intro d hres hd horder
    obtain ⟨hv, hex, hm⟩ := resolved_false_parts hres
    have hb : (evaluate r bodies models requested name b).broker =
        (runSchedule r bodies (closureOrder r comp) b).1 := by
      unfold evaluate
      rw [hc]
      dsimp only
      rw [if_neg (by simp [hv]), if_neg (by simp [hex, hm])]
    rw [hb]
    exact foldl_runStep_resolves r bodies (closureOrder r comp) (b, [])
      comp d hd (mem_closureOrder_self horder)

/-- A registry for instantiating the evaluator theorems: component 5
requires component 3; both registered, neither a datasource. -/
def rEv : Registry :=
  { delegates := [(3, ⟨[], []⟩), (5, ⟨[3], []⟩)]
    datasources := []
    rules := []
    conditions := []
    incidents := []
    simpleName := fun c => if c == 3 then "a" else "b"
    baseModuleName := fun _ => "m"
    qualName := fun c => if c == 3 then "m.a" else "m.b"
    order := [3, 5]
    getComponent := fun _ => none }

/-- The model table of the `rEv` session. -/
def mEv : List (String × Nat) := [("a", 3), ("b", 5)]

/-- Witness for C4 at the concrete session `rEv`, name "a", empty
broker: resolves to component 3, which is unresolved. -/
theorem evaluate_contract_witness :
    (bEmpty.holds 3 = true →
      evaluate rEv bodies0 mEv [] "a" bEmpty =
        ⟨bEmpty.get 3, bEmpty,
          if rEv.is_rule 3 then [] else [] ++ [("a", 3)], [], false⟩) ∧
    (bEmpty.holds 3 = false →
      (bEmpty.hasException 3 || bEmpty.hasMissing 3) = true →
      evaluate rEv bodies0 mEv [] "a" bEmpty =
        ⟨none, bEmpty,
          if rEv.is_rule 3 then [] else [] ++ [("a", 3)], [], true⟩) ∧
    (bEmpty.resolved 3 = false →
      (evaluate rEv bodies0 mEv [] "a" bEmpty).ran =
          [closureOrder rEv 3] ∧
      (evaluate rEv bodies0 mEv [] "a" bEmpty).broker =
          (runSchedule rEv bodies0 (closureOrder rEv 3) bEmpty).1 ∧
      (evaluate rEv bodies0 mEv [] "a" bEmpty).value =
          (runSchedule rEv bodies0 (closureOrder rEv 3) bEmpty).1.get 3) ∧
    (∀ d, bEmpty.resolved 3 = false → rEv.delegateOf 3 = some d →
      3 ∈ rEv.order →
      (evaluate rEv bodies0 mEv [] "a" bEmpty).broker.resolved 3 = true) :=
  evaluate_contract rEv bodies0 mEv [] "a" bEmpty 3 rfl

/-- Witness for C10: an unknown name leaves everything unchanged. -/
theorem evaluate_unknown_name_witness :
    evaluate rEv bodies0 mEv [] "zzz" bEmpty =
      ⟨none, bEmpty, [], [], false⟩ :=
  evaluate_unknown_name rEv bodies0 mEv [] "zzz" bEmpty rfl rfl

/-- A registry with one registered component (identity 1) used for the
C5 counterexample. -/
def rC5 : Registry :=
  { delegates := [(1, ⟨[], []⟩)]
    datasources := []
    rules := []
    conditions := []
    incidents := []
    simpleName := fun _ => "s"
    baseModuleName := fun _ => "m"
    qualName := fun _ => "m.s"
    order := [1]
    getComponent := fun _ => none }

/-- C5 counterexample: component 1 is registered, unresolved, and its
qualified name passes the inclusion predicate and fails the exclusion
predicate, yet bulk evaluation against an empty model table selects
nothing and makes no scheduler invocation: candidates are drawn from the
session's model table, not from the set of registered components. -/
theorem evaluate_all_misses_registered_component :
    rC5.delegateOf 1 = some ⟨[], []⟩ ∧
    bEmpty.resolved 1 = false ∧
    evaluate_all_tasks rC5 [] (fun _ => true) (fun _ => false) bEmpty = [] ∧
    evaluate_all rC5 bodies0 [] (fun _ => true) (fun _ => false) bEmpty =
      (bEmpty, []) :=
  ⟨rfl, rfl, rfl, rfl⟩

/-- C5 (amended): bulk evaluation selects exactly the components of the
session's model table whose qualified name passes the inclusion predicate
and fails the exclusion predicate and which are not yet resolved (value,
fault, or missing record); when any are selected they are all passed to
one scheduler invocation, and when none are selected no scheduler
invocation occurs and the broker is returned unchanged. -/
theorem evaluate_all_spec (r : Registry)
    (bodies : Nat → Broker → Except Nat Nat)
    (models : List (String × Nat)) (matchP ignoreP : String → Bool)
    (b : Broker) :
    (∀ c, c ∈ evaluate_all_tasks r models matchP ignoreP b ↔
      (c ∈ models.map Prod.snd ∧ matchP (r.qualName c) = true ∧
        ignoreP (r.qualName c) = false ∧ b.resolved c = false)) ∧
    (evaluate_all_tasks r models matchP ignoreP b = [] →
      evaluate_all r bodies models matchP ignoreP b = (b, [])) ∧
    (evaluate_all_tasks r models matchP ignoreP b ≠ [] →
      evaluate_all r bodies models matchP ignoreP b =
        ((runSchedule r bodies
            (evaluate_all_tasks r models matchP ignoreP b) b).1,
          [evaluate_all_tasks r models matchP ignoreP b])) := by
  refine ⟨?_, ?_, ?_⟩
  · intro c
    constructor
    · intro h
      obtain ⟨hm, hp⟩ := List.mem_filter.mp h
      simp only [Bool.and_eq_true, Bool.not_eq_true'] at hp
      exact ⟨hm, hp.1.1, hp.1.2, hp.2⟩
    · rintro ⟨hm, h1, h2, h3⟩
      refine List.mem_filter.mpr ⟨hm, ?_⟩
      simp [h1, h2, h3]
  · intro h
    unfold evaluate_all
    rw [h]
    rfl
  · intro hne
    have he : (evaluate_all_tasks r models matchP ignoreP b).isEmpty = false := by
      cases hq : evaluate_all_tasks r models matchP ignoreP b with
      | nil => exact absurd hq hne
      | cons a l => rfl
    unfold evaluate_all
    dsimp only
    rw [he]
    rfl

/-- Witness for the amended C5 theorem: against session `rEv` with table
`mEv` and the all-pass predicates, component 3 is selected and the
selected list goes to one scheduler invocation. -/
theorem evaluate_all_spec_witness :
    (3 ∈ evaluate_all_tasks rEv mEv (fun _ => true) (fun _ => false) bEmpty) ∧
    (evaluate_all rEv bodies0 mEv (fun _ => true) (fun _ => false) bEmpty =
      ((runSchedule rEv bodies0
          (evaluate_all_tasks rEv mEv (fun _ => true) (fun _ => false) bEmpty)
          bEmpty).1,
        [evaluate_all_tasks rEv mEv (fun _ => true) (fun _ => false) bEmpty])) :=
  ⟨((evaluate_all_spec rEv bodies0 mEv (fun _ => true) (fun _ => false)
      bEmpty).1 3).mpr ⟨by decide, rfl, rfl, rfl⟩,
    (evaluate_all_spec rEv bodies0 mEv (fun _ => true) (fun _ => false)
      bEmpty).2.2 (by decide)⟩

/-- C6: evaluation is read-and-extend and idempotent per component:
`evaluate` and `evaluate_all` preserve every prior broker entry of all
three tables unchanged; a scheduler run only ever invokes bodies of
components that were unresolved in the broker it started from; and
evaluating a name resolving to an already-resolved component performs no
scheduler invocation at all and returns the broker exactly as it was. -/
theorem evaluation_read_and_extend (r : Registry)
    (bodies : Nat → Broker → Except Nat Nat)
    (models requested : List (String × Nat)) (name : String)
    (matchP ignoreP : String → Bool) (b : Broker) :
    ((evaluate r bodies models requested name b).broker.Extends b) ∧
    ((evaluate_all r bodies models matchP ignoreP b).1.Extends b) ∧
    (∀ targets x, x ∈ (runSchedule r bodies targets b).2 →
      b.resolved x = false) ∧
    (∀ comp, (dictGet models name).or (r.getComponent name) = some comp →
      b.resolved comp = true →
      (evaluate r bodies models requested name b).broker = b ∧
      (evaluate r bodies models requested name b).ran = []) := by
  refine ⟨?_, ?_, ?_, ?_⟩
  · unfold evaluate
    cases hcc : (dictGet models name).or (r.getComponent name) with
    | none => exact extends_refl b
    | some comp =>
      dsimp only
      by_cases hv : b.holds comp = true
      · rw [if_pos hv]; exact extends_refl b
      · rw [if_neg hv]
        by_cases hex : (b.hasException comp || b.hasMissing comp) = true
        · rw [if_pos hex]; exact extends_refl b
        · rw [if_neg hex]
          exact runSchedule_extends r bodies _ b
  · unfold evaluate_all
    dsimp only
    by_cases he : (evaluate_all_tasks r models matchP ignoreP b).isEmpty = true
    · rw [he]; exact extends_refl b
    · have he' : (evaluate_all_tasks r models matchP ignoreP b).isEmpty = false := by
        simpa using he
      rw [he']
      exact runSchedule_extends r bodies _ b
  · intro targets x hx
    exact runSchedule_invoked r bodies targets b x hx
  · intro comp hcc hres
    unfold evaluate
    rw [hcc]
    dsimp only
    by_cases hv : b.holds comp = true
    · rw [if_pos hv]; exact ⟨rfl, rfl⟩
    · rw [if_neg hv]
      have hv' : b.holds comp = false := by simpa using hv
      have hex : (b.hasException comp || b.hasMissing comp) = true := by
        unfold Broker.resolved at hres
        rw [hv'] at hres
        simpa using hres
      rw [if_pos hex]
      exact ⟨rfl, rfl⟩

/-- Broker in which component 3 already holds the value 9. -/
def bC6 : Broker := ⟨[(3, 9)], [], []⟩

/-- Witness for C6 at the concrete session `rEv` with component 3
already resolved: the broker is preserved and re-evaluation makes no
scheduler invocation. -/
theorem evaluation_read_and_extend_witness :
    ((evaluate rEv bodies0 mEv [] "a" bC6).broker.Extends bC6) ∧
    ((evaluate_all rEv bodies0 mEv (fun _ => true) (fun _ => false)
        bC6).1.Extends bC6) ∧
    (bC6.resolved 3 = true) ∧
    ((evaluate rEv bodies0 mEv [] "a" bC6).broker = bC6 ∧
      (evaluate rEv bodies0 mEv [] "a" bC6).ran = []) :=
  ⟨(evaluation_read_and_extend rEv bodies0 mEv [] "a"
      (fun _ => true) (fun _ => false) bC6).1,
    (evaluation_read_and_extend rEv bodies0 mEv [] "a"
      (fun _ => true) (fun _ => false) bC6).2.1,
    rfl,
    (evaluation_read_and_extend rEv bodies0 mEv [] "a"
      (fun _ => true) (fun _ => false) bC6).2.2.2 3 rfl rfl⟩

/-- Witness for C7 at a concrete module state and registration
sequence. -/
theorem blacklist_allow_and_accessor_spec_witness :
    (allow_file FilterState.empty "x" = true ↔
      ∀ f ∈ FilterState.empty._FILE_FILTERS, f "x" = false) ∧
    ("a" ∈ get_disallowed_patterns
        (applyOps FilterState.empty [FilterOp.pat "a"]) ↔
      FilterOp.pat "a" ∈ [FilterOp.pat "a"]) :=
  ⟨blacklist_allow_and_accessor_spec.1 FilterState.empty "x",
    blacklist_allow_and_accessor_spec.2.2.1 [FilterOp.pat "a"] "a"⟩
